import Mathlib

/-!
Verification of the mask-format decoder/rasterizer and aggregation pipeline
of the oa-research repository, shallowly embedded from the Python sources
(src/common/masks.py, src/common/files.py, src/common/dictutils.py,
src/analysis/volume.py, src/scripts/compare_volumes.py).

Python strings are Lean `String`s, Python ints are `Int`, Python lists are
Lean `List`s, Python dicts are association lists (first occurrence of a key
is its binding, insertion replaces in place or appends).  A Python function
that can raise an uncaught exception is embedded returning `Option`
(`none` = the call raised).
-/

/-! ## Python string primitives -/

/-- The whitespace characters `str.strip` removes (space, tab, newline,
carriage return, vertical tab, form feed). -/
def isPySpace (c : Char) : Bool :=
  c = ' ' || c = '\t' || c = '\n' || c = '\r' || c = '\x0b' || c = '\x0c'

/-- Python `str.strip()`: drop leading and trailing whitespace. -/
def strip (s : String) : String :=
  String.mk (((s.data.dropWhile isPySpace).reverse.dropWhile isPySpace).reverse)

def digitVal (c : Char) : Option Nat :=
  if c.isDigit then some (c.toNat - '0'.toNat) else none

def parseDigitsAux : List Char → Nat → Option Nat
  | [], acc => some acc
  | c :: rest, acc =>
    match digitVal c with
    | none => none
    | some d => parseDigitsAux rest (acc * 10 + d)

/-- A non-empty all-digit run of characters, as a number. -/
def parseNatDigits : List Char → Option Nat
  | [] => none
  | cs => parseDigitsAux cs 0

/-- Python `int(s)` on a base-10 literal: surrounding whitespace is stripped,
an optional sign precedes a non-empty digit run; anything else raises
`ValueError` (`none` here). -/
def parseInt (s : String) : Option Int :=
  match (strip s).data with
  | '-' :: rest => (parseNatDigits rest).map (fun n => -(n : Int))
  | '+' :: rest => (parseNatDigits rest).map (fun n => (n : Int))
  | cs => (parseNatDigits cs).map (fun n => (n : Int))

/-- The Python loop `for x in xs: out.append(f(x))` where `f` can raise:
the first raise aborts the whole loop. -/
def mapOpt (f : α → Option β) : List α → Option (List β)
  | [] => some []
  | a :: rest =>
    match f a with
    | none => none
    | some b =>
      match mapOpt f rest with
      | none => none
      | some bs => some (b :: bs)

/-! ## Python dict primitives (association lists) -/

/-- `d.get(k)` / `d[k]`: the binding of the first occurrence of `k`. -/
def dget [DecidableEq κ] : List (κ × α) → κ → Option α
  | [], _ => none
  | (k', v) :: rest, k => if k' = k then some v else dget rest k

/-- `d[k] = v`: replace the first binding of `k` in place, else append. -/
def dset [DecidableEq κ] : List (κ × α) → κ → α → List (κ × α)
  | [], k, v => [(k, v)]
  | (k', v') :: rest, k, v =>
    if k' = k then (k', v) :: rest else (k', v') :: dset rest k v

/-! ## Data model (src/common/masks.py) -/

/-- `MaskMetadata` of masks.py: the parsed document header. -/
structure MaskMetadata where
  case_name : String
  case_pfx : String
  direction : String
  image_width : Int
  image_height : Int
  start_slice : Int
  end_slice : Int
deriving DecidableEq

/-- `Coordinate` of masks.py: one horizontal run segment, axis-corrected. -/
structure Coordinate where
  y : Int
  x1 : Int
  x2 : Int
deriving DecidableEq

/-- `SliceData` of masks.py: one decoded slice. -/
structure SliceData where
  slice_number : Int
  coordinates : List Coordinate
deriving DecidableEq

/-! ## CoordinateDecoder (masks.py `_extract_coordinates`) -/

def splitOnCharAux (sep : Char) : List Char → List Char → List (List Char)
  | [], acc => [acc.reverse]
  | c :: rest, acc =>
    if c = sep then acc.reverse :: splitOnCharAux sep rest []
    else splitOnCharAux sep rest (c :: acc)

/-- Python `s.split(sep)` for a one-character separator: split at every
occurrence, preserving empty pieces. -/
def pySplit (s : String) (sep : Char) : List String :=
  (splitOnCharAux sep s.data []).map String.mk

/-- The integers of one pair token: `x1, x2 = p.split(".")` followed by
`int(x1)`, `int(x2)`; raises unless the token has exactly one period and
both sides parse. -/
def pairInts (p : String) : Option (Int × Int) :=
  match pySplit p '.' with
  | [s1, s2] =>
    match parseInt s1, parseInt s2 with
    | some a, some b => some (a, b)
    | _, _ => none
  | _ => none

/-- One pair token decoded to a `Coordinate` given the already-parsed row
value: row offset of 3, columns converted to zero-based. -/
def pairCoordinate (yv : Int) (p : String) : Option Coordinate :=
  match pairInts p with
  | none => none
  | some ab => some ⟨yv - 3, ab.1 - 1, ab.2 - 1⟩

/-- masks.py `_extract_coordinates(line)`: the first space-separated token is
the row value, every later token an `x1.x2` pair; one `Coordinate` per pair,
`none` when any token fails to parse (the Python `ValueError` propagates). -/
def extract_coordinates (line : String) : Option (List Coordinate) :=
  match pySplit line ' ' with
  | [] => none
  | ytok :: ptoks =>
    match parseInt ytok with
    | none => none
    | some yv => mapOpt (pairCoordinate yv) ptoks

/-! ## SliceBlockParser (masks.py `extract_slice_mask`)

The Python function consumes lines destructively from the front of the
shared list; here it returns the remaining queue alongside its result.
`err` stands for an uncaught Python exception escaping the call, `stop`
for the Python return value `None`. -/

inductive ExtractResult where
  | err
  | stop
  | slice (s : SliceData)
deriving DecidableEq

/-- The first phase of the while loop: pop and discard lines until one
strips to the open bracket (that line included); `none` when the queue is
exhausted first. -/
def dropToOpen : List String → Option (List String)
  | [] => none
  | l :: rest => if strip l = "\x7b" then some rest else dropToOpen rest

/-- The second phase: collect stripped lines until one strips to the close
bracket (consumed, excluded) or the queue ends; returns the collected
coordinate lines and the remaining queue. -/
def collectToClose : List String → List String × List String
  | [] => ([], [])
  | l :: rest =>
    if strip l = "\x7d" then ([], rest)
    else
      let p := collectToClose rest
      (strip l :: p.1, p.2)

/-- masks.py `extract_slice_mask(lines)`.  Pops the slice-number line
(sentinel `"Tibia"`, an unparsable number, and — unstripped — an immediate
`"{"` line each return `None`); popping from an empty queue is caught and
returns `None`, but the later unguarded `lines[0]` raises.  Then discards
lines to the open bracket, collects lines to the close bracket, and decodes
every collected line, concatenating the results in input order; a decode
failure propagates as an exception. -/
def extract_slice_mask (lines : List String) : ExtractResult × List String :=
  match lines with
  | [] => (.stop, [])
  | l0 :: rest =>
    if strip l0 = "Tibia" then (.stop, rest)
    else
      match parseInt (strip l0) with
      | none => (.stop, rest)
      | some n =>
        match rest with
        | [] => (.err, [])
        | l1 :: _ =>
          if l1 = "\x7b" then (.stop, rest)
          else
            match dropToOpen rest with
            | none => (.slice ⟨n, []⟩, [])
            | some after =>
              let p := collectToClose after
              match mapOpt extract_coordinates p.1 with
              | none => (.err, p.2)
              | some ls => (.slice ⟨n, ls.flatten⟩, p.2)

/-! ## MaskDocumentParser (masks.py `extract_mask_metadata`,
files.py `read_masks_from_txt`) -/

/-- masks.py `extract_mask_metadata(lines)`: pops the 9 fixed header lines
(case name, prefix, direction, one skipped line, width, height, start
slice, end slice, one skipped region label); `none` when fewer than 9
lines remain or a numeric field does not parse. -/
def extract_mask_metadata (lines : List String) : Option (MaskMetadata × List String) :=
  match lines with
  | l0 :: l1 :: l2 :: _l3 :: l4 :: l5 :: l6 :: l7 :: _l8 :: rest =>
    match parseInt (strip l4), parseInt (strip l5), parseInt (strip l6), parseInt (strip l7) with
    | some w, some h, some s, some e => some (⟨strip l0, strip l1, strip l2, w, h, s, e⟩, rest)
    | _, _, _, _ => none
  | _ => none

/-! ## Rasterizer (masks.py `draw_slice_image`) -/

/-- A numpy index into an axis of length `n`: a value in `[0, n)` is used
as is, one in `[-n, 0)` wraps to `n + i`, anything else raises
`IndexError`. -/
def npIndex (n : Nat) (i : Int) : Option Nat :=
  if 0 ≤ i ∧ i < (n : Int) then some i.toNat
  else if -(n : Int) ≤ i ∧ i < 0 then some (i + (n : Int)).toNat
  else none

/-- `image_array[i, j] = 255` on a 2D array embedded as a list of rows. -/
def npSet (g : List (List Nat)) (i j : Int) : Option (List (List Nat)) :=
  match npIndex g.length i with
  | none => none
  | some i2 =>
    match npIndex (g.getD i2 []).length j with
    | none => none
    | some j2 => some (g.set i2 ((g.getD i2 []).set j2 255))

/-- Python `range(a, b)` over integers. -/
def intRange (a b : Int) : List Int :=
  (List.range (b - a).toNat).map (fun (k : Nat) => a + (k : Int))

/-- The inner loop of `draw_slice_image`: write 255 at row index `r` and
every column index of `idxs`, aborting at the first `IndexError`. -/
def writeCells : List (List Nat) → Int → List Int → Option (List (List Nat))
  | g, _, [] => some g
  | g, r, idx :: rest =>
    match npSet g r idx with
    | none => none
    | some g2 => writeCells g2 r rest

/-- The outer loop of `draw_slice_image` over the slice's coordinates. -/
def drawCoords : List (List Nat) → Int → List Coordinate → Option (List (List Nat))
  | g, _, [] => some g
  | g, hgt, c :: rest =>
    match writeCells g (hgt - c.y) (intRange c.x1 (c.x2 + 1)) with
    | none => none
    | some g2 => drawCoords g2 hgt rest

/-- masks.py `draw_slice_image(slc, meta)`: start from
`np.zeros((image_width, image_height))` — first axis `image_width` — and
for every coordinate `c` write 255 at `[image_height - c.y, idx]` for
`idx` in `range(c.x1, c.x2 + 1)`.  `none` when an index raises
`IndexError` (`np.zeros` needs non-negative sizes; negative declared
dimensions are not modelled). -/
def draw_slice_image (slc : SliceData) (meta : MaskMetadata) : Option (List (List Nat)) :=
  drawCoords
    (List.replicate meta.image_width.toNat (List.replicate meta.image_height.toNat 0))
    meta.image_height slc.coordinates

/-- The value of cell `(i, j)` of an embedded 2D array (0 outside). -/
def cell (g : List (List Nat)) (i j : Nat) : Nat := (g.getD i []).getD j 0

/-- files.py `read_masks_from_txt`, slice loop: repeatedly call
`extract_slice_mask`, stopping on `None` (`stop`) or once a slice number
reaches the metadata's end slice; an exception from the call is caught and
the loop continues.  Fuel-driven; the initial queue length is enough fuel
because every call consumes at least one line. -/
def readSlices : Nat → List String → Int → List SliceData → List SliceData
  | 0, _, _, acc => acc
  | _ + 1, [], _, acc => acc
  | fuel + 1, l :: rest, endSlice, acc =>
    match extract_slice_mask (l :: rest) with
    | (.stop, _) => acc
    | (.err, rem) => readSlices fuel rem endSlice acc
    | (.slice s, rem) =>
      if endSlice ≤ s.slice_number then acc ++ [s]
      else readSlices fuel rem endSlice (acc ++ [s])

/-- files.py `read_masks_from_txt`, drawing loop: `data[s.slice_number] =
draw_slice_image(s, metadata)` for every parsed slice — this loop is not
inside a try block, so a raising `draw_slice_image` aborts the whole
document read. -/
def drawAll (meta : MaskMetadata) :
    List SliceData → List (Int × List (List Nat)) → Option (List (Int × List (List Nat)))
  | [], data => some data
  | s :: rest, data =>
    match draw_slice_image s meta with
    | none => none
    | some img => drawAll meta rest (dset data s.slice_number img)

/-- files.py `read_masks_from_txt` on the already-read list of lines:
parse the header, loop over slice blocks, then rasterize each parsed
slice into the result dict. -/
def read_masks_from_txt (lines : List String) : Option (List (Int × List (List Nat))) :=
  match extract_mask_metadata lines with
  | none => none
  | some md => drawAll md.1 (readSlices md.2.length md.2 md.1.end_slice []) []

/-! ## MaskPostProcessor (masks.py `fill_mask`)

masks.py implements hole-filling by calling the external
`scipy.ndimage.binary_fill_holes` (a scipy routine, not code of this
repository) and rescaling with `np.where(closed > 0, 255, closed)`; the
filling itself is therefore modelled from the spec: an "off" cell not
reachable from the grid border through "off" cells (4-adjacency) becomes
"on", every other cell keeps its truth value, and the result is rescaled
to 0/255. -/

def validPos (g : List (List Nat)) (p : Nat × Nat) : Bool :=
  p.1 < g.length && p.2 < (g.getD p.1 []).length

def isOffCell (g : List (List Nat)) (p : Nat × Nat) : Bool :=
  (g.getD p.1 []).getD p.2 0 = 0

def isBorderPos (g : List (List Nat)) (p : Nat × Nat) : Bool :=
  validPos g p &&
    (p.1 = 0 || p.2 = 0 || p.1 = g.length - 1 || p.2 = (g.getD p.1 []).length - 1)

def adjacentPos (p q : Nat × Nat) : Bool :=
  (p.1 = q.1 && (p.2 + 1 = q.2 || q.2 + 1 = p.2)) ||
    (p.2 = q.2 && (p.1 + 1 = q.1 || q.1 + 1 = p.1))

def allPositions (g : List (List Nat)) : List (Nat × Nat) :=
  (List.range g.length).flatMap
    (fun i => (List.range (g.getD i []).length).map (fun j => (i, j)))

/-- One dilation step of the border-connected background: every valid off
cell adjacent to an already-reached cell joins the reached list. -/
def stepReach (g : List (List Nat)) (visited : List (Nat × Nat)) : List (Nat × Nat) :=
  visited ++ (allPositions g).filter
    (fun p => isOffCell g p && !(visited.contains p) && visited.any (fun q => adjacentPos p q))

def iterReach (g : List (List Nat)) : Nat → List (Nat × Nat) → List (Nat × Nat)
  | 0, v => v
  | n + 1, v => iterReach g n (stepReach g v)

def borderOffCells (g : List (List Nat)) : List (Nat × Nat) :=
  (allPositions g).filter (fun p => isBorderPos g p && isOffCell g p)

/-- The off cells reachable from the grid border through off cells:
saturate the dilation; `(allPositions g).length` steps always reach the
fixpoint. -/
def reachSet (g : List (List Nat)) : List (Nat × Nat) :=
  iterReach g (allPositions g).length (borderOffCells g)

def fillRow (g : List (List Nat)) (i : Nat) : List Nat → Nat → List Nat
  | [], _ => []
  | v :: rest, j =>
    (if v ≠ 0 then 255 else if (i, j) ∈ reachSet g then 0 else 255) ::
      fillRow g i rest (j + 1)

def fillRows (g : List (List Nat)) : List (List Nat) → Nat → List (List Nat)
  | [], _ => []
  | row :: rest, i => fillRow g i row 0 :: fillRows g rest (i + 1)

/-- Modelled from the spec: masks.py `fill_mask` — the binary hole-filling
done by the external `scipy.ndimage.binary_fill_holes` followed by the
rescale `np.where(closed > 0, 255, closed)`.  An "on" (nonzero) cell maps
to 255; an "off" cell becomes 255 when it is not reachable from the border
through off cells, and stays 0 otherwise. -/
def fill_mask (g : List (List Nat)) : List (List Nat) := fillRows g g 0

/-- Whether cell `(i, j)` is "on" (nonzero). -/
def onCell (g : List (List Nat)) (i j : Nat) : Bool := cell g i j ≠ 0

/-- The spec's reachability relation: an off border cell is reached, and a
valid off cell 4-adjacent to a reached cell is reached. -/
inductive Reach (g : List (List Nat)) : Nat × Nat → Prop where
  | border (p : Nat × Nat) (hb : isBorderPos g p = true)
      (ho : isOffCell g p = true) : Reach g p
  | step (p q : Nat × Nat) (hq : Reach g q) (ha : adjacentPos p q = true)
      (hv : validPos g p = true) (ho : isOffCell g p = true) : Reach g p

/-- How many positions of the grid the visited list is still missing — the
strictly-decreasing measure of the dilation. -/
def missingCount (g : List (List Nat)) (v : List (Nat × Nat)) : Nat :=
  (allPositions g).countP (fun p => !(v.contains p))

/-! ## HierarchicalAggregator (dictutils.py `update_nested_dict`) -/

/-- A value of the duck-typed nested hierarchy: either a non-mapping leaf
(image array, volume, number, ...; only its identity matters here) or a
nested mapping over string keys. -/
inductive NVal where
  | leaf (v : Int)
  | node (entries : List (String × NVal))

/-- dictutils.py `update_nested_dict(original, update)`: iterate the
update's items in order; a mapping value is recursively merged into
`original.get(k, empty-dict)` and stored at `k`, any other value
overwrites `original[k]`.  Python raises (`none` here) when `original` is
not a mapping and there is an item to write (`original[k] = ...` on a
non-dict). -/
def upd : NVal → List (String × NVal) → Option NVal
  | orig, [] => some orig
  | .leaf _, _ :: _ => none
  | .node entries, (k, v) :: rest =>
    match v with
    | .leaf x => upd (.node (dset entries k (.leaf x))) rest
    | .node m =>
      match upd ((dget entries k).getD (.node [])) m with
      | none => none
      | some merged => upd (.node (dset entries k merged)) rest
termination_by _o l => sizeOf l
decreasing_by
all_goals simp_wf
all_goals omega

mutual
/-- No patch path holds a mapping where the base holds a non-mapping leaf:
the presupposition of the merge contract (dictutils raises otherwise). -/
def compatV : NVal → NVal → Bool
  | _, .leaf _ => true
  | .leaf _, .node _ => false
  | .node entries, .node m => compatL entries m

def compatL : List (String × NVal) → List (String × NVal) → Bool
  | _, [] => true
  | entries, (k, v) :: rest =>
    compatV ((dget entries k).getD (.node [])) v && compatL entries rest
end

mutual
/-- Every mapping of the tree has pairwise-distinct keys — the Python dict
invariant the association-list encoding must assume. -/
def nodupV : NVal → Bool
  | .leaf _ => true
  | .node m => nodupL m

def nodupL : List (String × NVal) → Bool
  | [] => true
  | (k, v) :: rest =>
    !(rest.any (fun q => q.1 = k)) && nodupV v && nodupL rest
end

/-- The value of a nested dict at a non-empty key path (`[]` stands for
the dict itself). -/
def lookupPath (d : List (String × NVal)) : List String → Option NVal
  | [] => some (.node d)
  | [k] => dget d k
  | k :: k2 :: ks =>
    match dget d k with
    | some (.node m) => lookupPath m (k2 :: ks)
    | _ => none

/-- The base subtree a patch path is merged into: follow the path through
the base, an absent (or non-mapping) step standing for the empty dict the
code creates. -/
def baseAt (d : List (String × NVal)) : List String → List (String × NVal)
  | [] => d
  | k :: ks =>
    match dget d k with
    | some (.node m) => baseAt m ks
    | _ => baseAt [] ks

/-! ## VolumeCalculator (src/analysis/volume.py `mask`) -/

inductive VolumeError where
  | typeError
  | shapeError
deriving DecidableEq

/-- An in-memory numpy array as volume.py sees it: a dtype flag (boolean
or not), a shape, and the flattened truth values of its cells. -/
structure NDArray where
  dtypeBool : Bool
  shape : List Nat
  data : List Bool
deriving DecidableEq

/-- `np.count_nonzero(arr)`. -/
def countNonzero (arr : NDArray) : Nat := arr.data.countP id

/-- volume.py `mask(arr, voxel_size)`: asserts boolean dtype (the
TypeError-equivalent condition), then rank 2 or 3 (the ShapeError
condition), and returns `voxel_size * count_nonzero(arr)`; floats are
modelled as rationals. -/
def mask (arr : NDArray) (voxel_size : ℚ) : Except VolumeError ℚ :=
  if arr.dtypeBool = false then Except.error VolumeError.typeError
  else if ¬ (arr.shape.length = 2 ∨ arr.shape.length = 3) then
    Except.error VolumeError.shapeError
  else Except.ok (voxel_size * (countNonzero arr : ℚ))

/-! ## CrossCohortComparator (dictutils.py `find_diff`,
src/scripts/compare_volumes.py `main`) -/

/-- dictutils.py `find_diff(i1, i2)`: the items of `i2` absent from `i1`,
and the items of `i1` absent from `i2`, each in source order (the two
accumulating loops are the two filters). -/
def find_diff (i1 i2 : List Int) : List Int × List Int :=
  (i2.filter (fun x => decide (x ∉ i1)), i1.filter (fun x => decide (x ∉ i2)))

/-- `np.setdiff1d(a, b)` as compare_volumes.py uses it: the values of `a`
not in `b` (numpy also sorts and dedups; only the resulting set of
patients is consumed). -/
def setdiff1d (a b : List Int) : List Int :=
  (a.filter (fun x => decide (x ∉ b))).dedup

/-- compare_volumes.py, the `diff_iwfs_dess` loop: every patient of the
first collection that also appears in the second maps to the absolute
difference of the first elements of the two volume lists. -/
def diff_abs_first : List (Int × List ℚ) → List (Int × List ℚ) → List (Int × ℚ)
  | [], _ => []
  | (p, vols) :: rest, b =>
    match dget b p with
    | some bv => (p, |vols.headD 0 - bv.headD 0|) :: diff_abs_first rest b
    | none => diff_abs_first rest b

theorem mapOpt_pairCoordinate (yv : Int) (ptoks : List String) (prs : List (Int × Int))
    (hp : mapOpt pairInts ptoks = some prs) :
    mapOpt (pairCoordinate yv) ptoks =
      some (prs.map (fun ab => ⟨yv - 3, ab.1 - 1, ab.2 - 1⟩)) := by
  induction ptoks generalizing prs with
  | nil =>
    simp only [mapOpt] at hp ⊢
    cases hp
    rfl
  | cons a rest ih =>
    simp only [mapOpt] at hp ⊢
    cases hpa : pairInts a with
    | none => rw [hpa] at hp; exact absurd hp (by simp)
    | some ab =>
      rw [hpa] at hp
      cases hrest : mapOpt pairInts rest with
      | none => rw [hrest] at hp; exact absurd hp (by simp)
      | some bs =>
        rw [hrest] at hp
        cases hp
        simp only [pairCoordinate, hpa, ih bs hrest]
        rfl

/-- C1: a valid coordinate-block line, whose first token parses as the row
value `y` and whose `N` remaining tokens each split on one period into two
integers, decodes to exactly `N` coordinates, in token order, the `i`-th
being `(y - 3, x1_i - 1, x2_i - 1)`; all share the corrected row `y - 3`. -/
theorem coordinate_decoder_valid_line (line ytok : String) (ptoks : List String)
    (yv : Int) (prs : List (Int × Int))
    (hsplit : pySplit line ' ' = ytok :: ptoks)
    (hy : parseInt ytok = some yv)
    (hp : mapOpt pairInts ptoks = some prs) :
    extract_coordinates line = some (prs.map (fun ab => ⟨yv - 3, ab.1 - 1, ab.2 - 1⟩)) ∧
      (∀ cs, extract_coordinates line = some cs →
        cs.length = ptoks.length ∧ ∀ c ∈ cs, c.y = yv - 3) := by
  have hmain : extract_coordinates line =
      some (prs.map (fun ab => ⟨yv - 3, ab.1 - 1, ab.2 - 1⟩)) := by
    simp only [extract_coordinates, hsplit, hy]
    exact mapOpt_pairCoordinate yv ptoks prs hp
  refine ⟨hmain, fun cs hcs => ?_⟩
  rw [hmain] at hcs
  cases hcs
  constructor
  · rw [List.length_map]
    have : ptoks.length = prs.length := by
      clear hmain hsplit hy
      induction ptoks generalizing prs with
      | nil => simp only [mapOpt] at hp; cases hp; rfl
      | cons a rest ih =>
        simp only [mapOpt] at hp
        cases hpa : pairInts a with
        | none => rw [hpa] at hp; exact absurd hp (by simp)
        | some ab =>
          rw [hpa] at hp
          cases hrest : mapOpt pairInts rest with
          | none => rw [hrest] at hp; exact absurd hp (by simp)
          | some bs =>
            rw [hrest] at hp; cases hp
            simp [ih bs hrest]
    omega
  · intro c hc
    rcases List.mem_map.mp hc with ⟨ab, _, rfl⟩
    rfl

/-- C1 witness: the line `"13 2.4 5.7"` decodes to the two run segments
`(10, 1, 3)` and `(10, 4, 6)`. -/
theorem coordinate_decoder_valid_line_witness :
    extract_coordinates "13 2.4 5.7" =
      some [⟨10, 1, 3⟩, ⟨10, 4, 6⟩] := by
  have h := coordinate_decoder_valid_line "13 2.4 5.7" "13" ["2.4", "5.7"] 13
    [(2, 4), (5, 7)] (by decide) (by decide) (by decide)
  exact h.1

theorem dropToOpen_eq_none (ls : List String) (h : ∀ l ∈ ls, strip l ≠ "\x7b") :
    dropToOpen ls = none := by
  induction ls with
  | nil => rfl
  | cons l rest ih =>
    have hl : strip l ≠ "\x7b" := h l (List.mem_cons_self l rest)
    simp only [dropToOpen, hl, ite_false, if_neg hl]
    exact ih (fun l2 hl2 => h l2 (List.mem_cons_of_mem l hl2))

/-- C2 (amended): when the next line parses as an integer slice number and
no later line in the queue strips to the open bracket, `extract_slice_mask`
does NOT return the Stop signal: with at least one line after the number it
consumes the whole queue and returns a `SliceData` with that slice number
and an empty run list, and with nothing after the number it raises an
uncaught `IndexError` (`err`).  (The claim said Stop is returned.) -/
theorem extract_slice_mask_no_open (l0 : String) (n : Int)
    (hn : parseInt (strip l0) = some n) :
    (∀ l1 ls, (∀ l ∈ l1 :: ls, strip l ≠ "\x7b") →
      extract_slice_mask (l0 :: l1 :: ls) = (ExtractResult.slice ⟨n, []⟩, [])) ∧
    extract_slice_mask [l0] = (ExtractResult.err, []) := by
  have htib : strip l0 ≠ "Tibia" := by
    intro h
    rw [h] at hn
    rw [show parseInt "Tibia" = none from by decide] at hn
    exact Option.noConfusion hn
  constructor
  · intro l1 ls hnb
    have h1 : l1 ≠ "\x7b" := by
      intro h
      have := hnb l1 (List.mem_cons_self l1 ls)
      rw [h] at this
      exact this (by decide)
    have hdrop : dropToOpen (l1 :: ls) = none := dropToOpen_eq_none _ hnb
    simp only [extract_slice_mask, htib, ite_false, if_neg htib, hn, h1, hdrop]
  · simp only [extract_slice_mask, htib, ite_false, if_neg htib, hn]

/-- C2 counterexample: on the queue `["5", "x"]` — slice number parses,
no open-bracket line follows — the parser returns a decoded slice
(number 5, no runs), not a Stop signal, refuting the claim as stated. -/
theorem extract_slice_mask_no_open_counterexample :
    (extract_slice_mask ["5", "x"]).1 = ExtractResult.slice ⟨5, []⟩ ∧
      (extract_slice_mask ["5", "x"]).1 ≠ ExtractResult.stop := by
  exact ⟨by decide, by decide⟩

/-- C2 amended-claim witness at the concrete queues `["5", "x"]` and
`["5"]`. -/
theorem extract_slice_mask_no_open_witness :
    extract_slice_mask ["5", "x"] = (ExtractResult.slice ⟨5, []⟩, []) ∧
      extract_slice_mask ["5"] = (ExtractResult.err, []) := by
  have h := extract_slice_mask_no_open "5" 5 (by decide)
  exact ⟨h.1 "x" [] (by decide), h.2⟩

/-- C5: a document whose first post-header line strips to the sentinel
`"Tibia"` parses to a Stop signal and zero slices: `read_masks_from_txt`
returns the empty dict without an error, and `extract_slice_mask` returns
the Stop signal on that queue. -/
theorem tibia_sentinel_stops (lines : List String) (meta : MaskMetadata)
    (tib : String) (rest : List String)
    (hmeta : extract_mask_metadata lines = some (meta, tib :: rest))
    (htib : strip tib = "Tibia") :
    read_masks_from_txt lines = some [] ∧
      (extract_slice_mask (tib :: rest)).1 = ExtractResult.stop := by
  have hext : extract_slice_mask (tib :: rest) = (ExtractResult.stop, rest) := by
    simp only [extract_slice_mask, htib, ite_true, if_pos rfl]
  constructor
  · have hrs : readSlices (tib :: rest).length (tib :: rest) meta.end_slice [] = [] := by
      simp only [List.length_cons]
      rw [readSlices, hext]
    simp only [read_masks_from_txt, hmeta, hrs]
    rfl
  · rw [hext]

/-- C5 witness: a concrete 10-line document whose slice region starts with
the sentinel line `"Tibia"` yields the empty dict. -/
theorem tibia_sentinel_stops_witness :
    read_masks_from_txt ["c", "p", "LEFT", "sk", "10", "10", "1", "5", "Femur", "Tibia"] =
      some [] := by
  have h := tibia_sentinel_stops
    ["c", "p", "LEFT", "sk", "10", "10", "1", "5", "Femur", "Tibia"]
    ⟨"c", "p", "LEFT", 10, 10, 1, 5⟩ "Tibia" [] (by decide) (by decide)
  exact h.1

/-! ## Rasterizer lemmas -/

theorem getD_set_self (l : List α) (i : Nat) (a d : α) (h : i < l.length) :
    (l.set i a).getD i d = a := by
  induction l generalizing i with
  | nil => simp at h
  | cons x xs ih =>
    cases i with
    | zero => rfl
    | succ k => exact ih k (by simpa using h)

theorem getD_set_ne (l : List α) (i j : Nat) (a d : α) (h : i ≠ j) :
    (l.set i a).getD j d = l.getD j d := by
  induction l generalizing i j with
  | nil => simp [List.set]
  | cons x xs ih =>
    cases i with
    | zero =>
      cases j with
      | zero => exact absurd rfl h
      | succ k => rfl
    | succ m =>
      cases j with
      | zero => rfl
      | succ k => exact ih m k (by omega)

theorem getD_replicate (n i : Nat) (x d : α) :
    (List.replicate n x).getD i d = if i < n then x else d := by
  induction n generalizing i with
  | zero => simp [List.getD]
  | succ m ih =>
    cases i with
    | zero => simp [List.replicate]
    | succ k => simpa [List.replicate, Nat.succ_lt_succ_iff] using ih k

theorem npIndex_some_lt (n : Nat) (i : Int) (k : Nat) (h : npIndex n i = some k) :
    k < n := by
  unfold npIndex at h
  split at h
  · cases h; omega
  · split at h
    · cases h; omega
    · exact Option.noConfusion h

theorem npIndex_some_bounds (n : Nat) (i : Int) (k : Nat) (h : npIndex n i = some k) :
    -(n : Int) ≤ i ∧ i < (n : Int) := by
  unfold npIndex at h
  split at h
  · omega
  · split at h
    · omega
    · exact Option.noConfusion h

theorem npIndex_of_nonneg (n : Nat) (i : Int) (h0 : 0 ≤ i) (h1 : i < (n : Int)) :
    npIndex n i = some i.toNat := by
  unfold npIndex
  rw [if_pos ⟨h0, h1⟩]

theorem npIndex_none_of_oob (n : Nat) (i : Int)
    (h : i < -(n : Int) ∨ (n : Int) ≤ i) :
    npIndex n i = none := by
  unfold npIndex
  rw [if_neg (by omega), if_neg (by omega)]

/-- One successful `npSet`: the target indices resolved, exactly one cell
changed to 255, row count and per-row lengths unchanged. -/
theorem npSet_some_cell (g g2 : List (List Nat)) (i j : Int)
    (h : npSet g i j = some g2) :
    ∃ i2 j2, npIndex g.length i = some i2 ∧
      npIndex (g.getD i2 []).length j = some j2 ∧
      g2.length = g.length ∧
      (∀ a, (g2.getD a []).length = (g.getD a []).length) ∧
      (∀ a b, cell g2 a b = if a = i2 ∧ b = j2 then 255 else cell g a b) := by
  unfold npSet at h
  split at h
  · exact Option.noConfusion h
  · rename_i i2 hi
    split at h
    · exact Option.noConfusion h
    · rename_i j2 hj
      cases h
      refine ⟨i2, j2, hi, hj, by simp, fun a => ?_, fun a b => ?_⟩
      · by_cases ha : i2 = a
        · subst ha
          rw [getD_set_self _ _ _ _ (npIndex_some_lt _ _ _ hi)]
          simp
        · rw [getD_set_ne _ _ _ _ _ ha]
      · by_cases ha : a = i2
        · subst ha
          rw [cell, getD_set_self _ _ _ _ (npIndex_some_lt _ _ _ hi)]
          by_cases hb : b = j2
          · subst hb
            rw [if_pos ⟨rfl, rfl⟩, getD_set_self _ _ _ _ (npIndex_some_lt _ _ _ hj)]
          · rw [if_neg (by intro hc; exact hb hc.2),
              getD_set_ne _ _ _ _ _ (fun hc => hb hc.symm)]
            rfl
        · rw [if_neg (by intro hc; exact ha hc.1), cell,
            getD_set_ne _ _ _ _ _ (fun hc => ha hc.symm)]
          rfl

theorem mem_intRange (a b x : Int) : x ∈ intRange a b ↔ a ≤ x ∧ x < b := by
  unfold intRange
  constructor
  · intro hx
    rcases List.mem_map.mp hx with ⟨k, hk, rfl⟩
    rw [List.mem_range] at hk
    omega
  · intro hx
    refine List.mem_map.mpr ⟨(x - a).toNat, List.mem_range.mpr (by omega), by omega⟩

theorem intRange_length (a b : Int) : (intRange a b).length = (b - a).toNat := by
  unfold intRange
  rw [List.length_map, List.length_range]

/-- In-bounds `writeCells`: succeeds, preserves the shape, sets exactly row
`r.toNat` at the columns of the index list. -/
theorem writeCells_char (r : Int) (L : List Int) :
    ∀ g : List (List Nat), 0 ≤ r → r < (g.length : Int) →
    (∀ x ∈ L, 0 ≤ x ∧ x < ((g.getD r.toNat []).length : Int)) →
    ∃ g2, writeCells g r L = some g2 ∧ g2.length = g.length ∧
      (∀ a, (g2.getD a []).length = (g.getD a []).length) ∧
      ∀ a b, cell g2 a b =
        if a = r.toNat ∧ (∃ x ∈ L, b = x.toNat) then 255 else cell g a b := by
  induction L with
  | nil =>
    intro g _ _ _
    exact ⟨g, rfl, rfl, fun a => rfl, fun a b => by simp⟩
  | cons idx rest ih =>
    intro g h0 h1 hL
    have hidx := hL idx (List.mem_cons_self idx rest)
    have hni : npIndex g.length r = some r.toNat := npIndex_of_nonneg _ _ h0 h1
    have hnj : npIndex (g.getD r.toNat []).length idx = some idx.toNat :=
      npIndex_of_nonneg _ _ hidx.1 hidx.2
    have hset : npSet g r idx =
        some (g.set r.toNat ((g.getD r.toNat []).set idx.toNat 255)) := by
      simp only [npSet, hni, hnj]
    obtain ⟨i2, j2, hi, hj, hlen, hrows, hcells⟩ :=
      npSet_some_cell g _ r idx hset
    rw [hni] at hi
    cases hi
    rw [hnj] at hj
    cases hj
    obtain ⟨g2, hw, hlen2, hrows2, hcells2⟩ := ih _
      (by omega) (by rw [hlen]; exact h1)
      (fun x hx => by rw [hrows r.toNat]; exact hL x (List.mem_cons_of_mem idx hx))
    refine ⟨g2, ?_, hlen2.trans hlen, fun a => (hrows2 a).trans (hrows a), fun a b => ?_⟩
    · simp only [writeCells, hset]
      exact hw
    · rw [hcells2 a b, hcells a b]
      by_cases ha : a = r.toNat
      · by_cases hbi : b = idx.toNat
        · by_cases hc : ∃ x ∈ rest, b = x.toNat
          · simp [ha, hbi, hc, List.mem_cons]
          · simp [ha, hbi, hc, List.mem_cons]
        · by_cases hc : ∃ x ∈ rest, b = x.toNat
          · simp [ha, hbi, hc, List.mem_cons]
          · simp [ha, hbi, hc, List.mem_cons]
      · by_cases hc : ∃ x ∈ rest, b = x.toNat
        · simp [ha, hc, List.mem_cons]
        · simp [ha, hc, List.mem_cons]

/-- In-bounds `drawCoords`: succeeds, preserves the shape, and a cell is 255
exactly when some coordinate covers it. -/
theorem drawCoords_char (hgt : Int) (w h : Nat) (cs : List Coordinate) :
    ∀ g : List (List Nat), g.length = w →
    (∀ a, a < w → (g.getD a []).length = h) →
    (∀ c ∈ cs, 0 ≤ hgt - c.y ∧ hgt - c.y < (w : Int) ∧
      0 ≤ c.x1 ∧ c.x2 < (h : Int)) →
    ∃ g2, drawCoords g hgt cs = some g2 ∧ g2.length = w ∧
      (∀ a, a < w → (g2.getD a []).length = h) ∧
      ∀ a b, cell g2 a b =
        if ∃ c ∈ cs, (a : Int) = hgt - c.y ∧ c.x1 ≤ (b : Int) ∧ (b : Int) ≤ c.x2
        then 255 else cell g a b := by
  induction cs with
  | nil =>
    intro g hgl hrows _
    exact ⟨g, rfl, hgl, hrows, fun a b => by simp⟩
  | cons c rest ih =>
    intro g hgl hrows hcs
    have hc := hcs c (List.mem_cons_self c rest)
    have har : ∀ a : Nat, (a = (hgt - c.y).toNat) ↔ ((a : Int) = hgt - c.y) := by
      intro a
      constructor
      · intro h2
        subst h2
        exact Int.toNat_of_nonneg hc.1
      · intro h2
        omega
    have hrlt : (hgt - c.y).toNat < w := by omega
    have hrowlen : (g.getD (hgt - c.y).toNat []).length = h := hrows _ hrlt
    obtain ⟨g2, hw, hlen2, hrows2, hcells2⟩ :=
      writeCells_char (hgt - c.y) (intRange c.x1 (c.x2 + 1)) g hc.1
        (by omega)
        (fun x hx => by
          rw [mem_intRange] at hx
          rw [hrowlen]
          omega)
    have hgl2 : g2.length = w := hlen2.trans hgl
    have hrows2w : ∀ a, a < w → (g2.getD a []).length = h :=
      fun a ha => (hrows2 a).trans (hrows a ha)
    obtain ⟨g3, hd, hgl3, hrows3, hcells3⟩ := ih g2 hgl2 hrows2w
      (fun c2 hc2 => hcs c2 (List.mem_cons_of_mem c hc2))
    refine ⟨g3, ?_, hgl3, hrows3, fun a b => ?_⟩
    · simp only [drawCoords, hw]
      exact hd
    · rw [hcells3 a b, hcells2 a b]
      have hbr : (∃ x ∈ intRange c.x1 (c.x2 + 1), b = x.toNat) ↔
          (c.x1 ≤ (b : Int) ∧ (b : Int) ≤ c.x2) := by
        constructor
        · rintro ⟨x, hx, rfl⟩
          rw [mem_intRange] at hx
          omega
        · intro hb
          exact ⟨(b : Int), (mem_intRange _ _ _).mpr (by omega), by omega⟩
      by_cases hp : (a : Int) = hgt - c.y ∧ c.x1 ≤ (b : Int) ∧ (b : Int) ≤ c.x2
      · by_cases hq : ∃ c2 ∈ rest,
            (a : Int) = hgt - c2.y ∧ c2.x1 ≤ (b : Int) ∧ (b : Int) ≤ c2.x2
        · simp [har, hbr, hp, hq, List.mem_cons, hp.1, hp.2]
        · simp [har, hbr, hq, List.mem_cons, hp.1, hp.2]
      · by_cases hq : ∃ c2 ∈ rest,
            (a : Int) = hgt - c2.y ∧ c2.x1 ≤ (b : Int) ∧ (b : Int) ≤ c2.x2
        · have : (∃ c2 ∈ c :: rest,
              (a : Int) = hgt - c2.y ∧ c2.x1 ≤ (b : Int) ∧ (b : Int) ≤ c2.x2) := by
            obtain ⟨c2, hm, hP⟩ := hq
            exact ⟨c2, List.mem_cons_of_mem c hm, hP⟩
          rw [if_pos this, if_pos hq]
        · have hno : ¬ (∃ c2 ∈ c :: rest,
              (a : Int) = hgt - c2.y ∧ c2.x1 ≤ (b : Int) ∧ (b : Int) ≤ c2.x2) := by
            rintro ⟨c2, hm, hP⟩
            rcases List.mem_cons.mp hm with rfl | hm2
            · exact hp hP
            · exact hq ⟨c2, hm2, hP⟩
          rw [if_neg hno, if_neg hq]
          have : ¬ (a = (hgt - c.y).toNat ∧
              ∃ x ∈ intRange c.x1 (c.x2 + 1), b = x.toNat) := by
            intro hand
            exact hp ⟨(har a).mp hand.1, (hbr.mp hand.2)⟩
          rw [if_neg this]

theorem cell_zeros (w h i j : Nat) :
    cell (List.replicate w (List.replicate h 0)) i j = 0 := by
  unfold cell
  rw [getD_replicate]
  by_cases hi : i < w
  · rw [if_pos hi, getD_replicate]
    by_cases hj : j < h
    · rw [if_pos hj]
    · rw [if_neg hj]
  · rw [if_neg hi]
    rfl

/-- C3: on a slice whose run segments all fall inside the canvas (flipped
row inside the first axis, columns inside the second), `draw_slice_image`
succeeds and a cell `(i, j)` is 255 exactly when some segment `(y, x1, x2)`
has `i = image_height - y` and `x1 ≤ j ≤ x2`; every other cell is 0. -/
theorem rasterizer_in_bounds (slc : SliceData) (meta : MaskMetadata)
    (hcs : ∀ c ∈ slc.coordinates,
      0 ≤ meta.image_height - c.y ∧ meta.image_height - c.y < meta.image_width ∧
      0 ≤ c.x1 ∧ c.x2 < meta.image_height) :
    ∃ g, draw_slice_image slc meta = some g ∧
      ∀ i j, i < meta.image_width.toNat → j < meta.image_height.toNat →
        cell g i j =
          if ∃ c ∈ slc.coordinates,
              (i : Int) = meta.image_height - c.y ∧ c.x1 ≤ (j : Int) ∧ (j : Int) ≤ c.x2
          then 255 else 0 := by
  obtain ⟨g2, hd, _, _, hcells⟩ := drawCoords_char meta.image_height
    meta.image_width.toNat meta.image_height.toNat slc.coordinates
    (List.replicate meta.image_width.toNat (List.replicate meta.image_height.toNat 0))
    (by simp)
    (fun a ha => by rw [getD_replicate, if_pos ha]; simp)
    (fun c hcm => by
      have hb := hcs c hcm
      refine ⟨hb.1, by omega, hb.2.2.1, by omega⟩)
  refine ⟨g2, hd, fun i j _ _ => ?_⟩
  rw [hcells i j, cell_zeros]

/-- C3 witness: segment `(y=10, x1=5, x2=8)` on a 20 x 20 canvas: cell
`(20-10, 5)` is on, cells `(10, 4)` and `(9, 6)` are off. -/
theorem rasterizer_in_bounds_witness :
    ∃ g, draw_slice_image ⟨1, [⟨10, 5, 8⟩]⟩ ⟨"m", "p", "L", 20, 20, 1, 1⟩ = some g ∧
      cell g 10 5 = 255 ∧ cell g 10 4 = 0 ∧ cell g 9 6 = 0 := by
  obtain ⟨g, hd, hcells⟩ := rasterizer_in_bounds ⟨1, [⟨10, 5, 8⟩]⟩
    ⟨"m", "p", "L", 20, 20, 1, 1⟩ (by decide)
  refine ⟨g, hd, ?_, ?_, ?_⟩
  · rw [hcells 10 5 (by decide) (by decide), if_pos (by decide)]
  · rw [hcells 10 4 (by decide) (by decide), if_neg (by decide)]
  · rw [hcells 9 6 (by decide) (by decide), if_neg (by decide)]

theorem writeCells_some_shape (r : Int) (L : List Int) :
    ∀ g g2 : List (List Nat), writeCells g r L = some g2 →
      g2.length = g.length ∧ ∀ a, (g2.getD a []).length = (g.getD a []).length := by
  induction L with
  | nil =>
    intro g g2 h
    cases h
    exact ⟨rfl, fun a => rfl⟩
  | cons idx rest ih =>
    intro g g2 h
    unfold writeCells at h
    split at h
    · exact Option.noConfusion h
    · rename_i g3 hset
      obtain ⟨i2, j2, _, _, hlen, hrows, _⟩ := npSet_some_cell g g3 r idx hset
      obtain ⟨hlen2, hrows2⟩ := ih g3 g2 h
      exact ⟨hlen2.trans hlen, fun a => (hrows2 a).trans (hrows a)⟩

theorem writeCells_some_head (r idx : Int) (rest : List Int)
    (g g2 : List (List Nat)) (h : writeCells g r (idx :: rest) = some g2) :
    ∃ k, npIndex g.length r = some k := by
  unfold writeCells at h
  split at h
  · exact Option.noConfusion h
  · rename_i g3 hset
    obtain ⟨i2, j2, hi, _, _, _, _⟩ := npSet_some_cell g g3 r idx hset
    exact ⟨i2, hi⟩

theorem intRange_ne_nil (a b : Int) (hab : a ≤ b) : intRange a (b + 1) ≠ [] := by
  intro hnil
  have hl := intRange_length a (b + 1)
  rw [hnil] at hl
  simp at hl
  omega

/-- A successful `drawCoords` preserves the shape, and every coordinate with
a non-empty column range had a row index valid for the FIRST axis. -/
theorem drawCoords_some_shape (hgt : Int) (cs : List Coordinate) :
    ∀ g g2, drawCoords g hgt cs = some g2 →
      g2.length = g.length ∧ (∀ a, (g2.getD a []).length = (g.getD a []).length) ∧
      ∀ c ∈ cs, c.x1 ≤ c.x2 →
        -(g.length : Int) ≤ hgt - c.y ∧ hgt - c.y < (g.length : Int) := by
  induction cs with
  | nil =>
    intro g g2 h
    cases h
    exact ⟨rfl, fun a => rfl, by simp⟩
  | cons c rest ih =>
    intro g g2 h
    unfold drawCoords at h
    split at h
    · exact Option.noConfusion h
    · rename_i g3 hwc
      obtain ⟨hlen3, hrows3⟩ := writeCells_some_shape _ _ g g3 hwc
      obtain ⟨hlen2, hrows2, hbnd⟩ := ih g3 g2 h
      refine ⟨hlen2.trans hlen3, fun a => (hrows2 a).trans (hrows3 a), ?_⟩
      intro c2 hc2 hx
      rcases List.mem_cons.mp hc2 with rfl | hm
      · cases hL : intRange c2.x1 (c2.x2 + 1) with
        | nil => exact absurd hL (intRange_ne_nil _ _ hx)
        | cons idx rest2 =>
          rw [hL] at hwc
          obtain ⟨k, hk⟩ := writeCells_some_head _ _ _ _ _ hwc
          exact npIndex_some_bounds _ _ _ hk
      · have hb := hbnd c2 hm hx
        rw [hlen3] at hb
        exact hb

/-- C10: a successful `draw_slice_image` returns a raster whose first,
row-indexed axis has length `image_width` (not `image_height`) and whose
rows have length `image_height`; consequently the flipped row index
`image_height - y` of every drawn segment is bounded by `image_width`. -/
theorem draw_slice_image_shape (slc : SliceData) (meta : MaskMetadata)
    (g : List (List Nat)) (hg : draw_slice_image slc meta = some g) :
    g.length = meta.image_width.toNat ∧
      (∀ a, a < g.length → (g.getD a []).length = meta.image_height.toNat) ∧
      ∀ c ∈ slc.coordinates, c.x1 ≤ c.x2 →
        -(meta.image_width.toNat : Int) ≤ meta.image_height - c.y ∧
          meta.image_height - c.y < (meta.image_width.toNat : Int) := by
  unfold draw_slice_image at hg
  obtain ⟨hlen, hrows, hbnd⟩ :=
    drawCoords_some_shape meta.image_height slc.coordinates _ g hg
  rw [List.length_replicate] at hlen
  rw [List.length_replicate] at hbnd
  refine ⟨hlen, fun a ha => ?_, hbnd⟩
  rw [hrows a, getD_replicate, if_pos (by rw [hlen] at ha; exact ha)]
  simp

/-- C10 witness: on a 5-wide, 3-high declared canvas the raster is 5 rows
of 3 cells, and the flipped row 3 - (-1) = 4 — beyond `image_height` but
inside `image_width` — is writable. -/
theorem draw_slice_image_shape_witness :
    draw_slice_image ⟨1, [⟨-1, 0, 0⟩]⟩ ⟨"m", "p", "L", 5, 3, 1, 1⟩ =
      some [[0, 0, 0], [0, 0, 0], [0, 0, 0], [0, 0, 0], [255, 0, 0]] ∧
      ([[0, 0, 0], [0, 0, 0], [0, 0, 0], [0, 0, 0], [255, 0, 0]] : List (List Nat)).length =
        (5 : Int).toNat := by
  refine ⟨by decide, ?_⟩
  exact (draw_slice_image_shape ⟨1, [⟨-1, 0, 0⟩]⟩ ⟨"m", "p", "L", 5, 3, 1, 1⟩ _ (by decide)).1

theorem drawCoords_bad_row_none (hgt : Int) (w : Nat) (cs : List Coordinate) :
    ∀ g : List (List Nat), g.length = w →
    (∃ c ∈ cs, c.x1 ≤ c.x2 ∧
      (hgt - c.y < -(w : Int) ∨ (w : Int) ≤ hgt - c.y)) →
    drawCoords g hgt cs = none := by
  induction cs with
  | nil =>
    intro g _ hex
    obtain ⟨c, hm, _⟩ := hex
    exact absurd hm (List.not_mem_nil c)
  | cons c rest ih =>
    intro g hgl hex
    obtain ⟨c2, hm, hx, hbad⟩ := hex
    rcases List.mem_cons.mp hm with rfl | hm2
    · have hni : npIndex g.length (hgt - c2.y) = none := by
        rw [hgl]
        exact npIndex_none_of_oob _ _ (by omega)
      cases hL : intRange c2.x1 (c2.x2 + 1) with
      | nil => exact absurd hL (intRange_ne_nil _ _ hx)
      | cons idx rest2 =>
        have hset : npSet g (hgt - c2.y) idx = none := by
          simp only [npSet, hni]
        have hwc : writeCells g (hgt - c2.y) (idx :: rest2) = none := by
          simp only [writeCells, hset]
        simp only [drawCoords, hL, hwc]
    · cases hwc : writeCells g (hgt - c.y) (intRange c.x1 (c.x2 + 1)) with
      | none => simp only [drawCoords, hwc]
      | some g3 =>
        have hlen3 := (writeCells_some_shape _ _ g g3 hwc).1
        simp only [drawCoords, hwc]
        exact ih g3 (hlen3.trans hgl) ⟨c2, hm2, hx, hbad⟩

/-- C4 (amended): an out-of-bounds coordinate is NOT recovered per cell: a
run segment whose flipped row index `image_height - y` falls outside the
numpy-valid range `[-image_width, image_width)` makes `draw_slice_image`
raise `IndexError` (`none`), and since `read_masks_from_txt` calls it
outside any try block, the whole document read fails.  (A negative
in-range index silently wraps to another row rather than clamping or
skipping.) -/
theorem rasterizer_oob_row_fatal (slc : SliceData) (meta : MaskMetadata)
    (hex : ∃ c ∈ slc.coordinates, c.x1 ≤ c.x2 ∧
      (meta.image_height - c.y < -(meta.image_width.toNat : Int) ∨
        (meta.image_width.toNat : Int) ≤ meta.image_height - c.y)) :
    draw_slice_image slc meta = none := by
  unfold draw_slice_image
  exact drawCoords_bad_row_none meta.image_height meta.image_width.toNat
    slc.coordinates _ (by simp) hex

/-- C4 counterexample: this document declares a 5 x 5 canvas and one slice
whose coordinate line `"2 1.1"` decodes to corrected row -1; the flipped
row index 5 - (-1) = 6 is out of bounds, the `IndexError` is not recovered,
and `read_masks_from_txt` fails for the whole document — refuting
"recoverable per cell, never fatal to the whole document". -/
theorem rasterizer_oob_counterexample :
    read_masks_from_txt
      ["c", "p", "L", "sk", "5", "5", "1", "1", "Femur", "1", "7", "\x7b", "2 1.1", "\x7d"] =
      none := by decide

/-- C4 amended-claim witness: a concrete slice with corrected row -1 on a
5 x 5 canvas makes `draw_slice_image` itself fail. -/
theorem rasterizer_oob_row_fatal_witness :
    draw_slice_image ⟨1, [⟨-1, 0, 0⟩]⟩ ⟨"c", "p", "L", 5, 5, 1, 1⟩ = none :=
  rasterizer_oob_row_fatal ⟨1, [⟨-1, 0, 0⟩]⟩ ⟨"c", "p", "L", 5, 5, 1, 1⟩ (by decide)

/-! ## VolumeCalculator and CrossCohortComparator theorems -/

/-- C7: `mask` fails with the TypeError-equivalent condition on a
non-boolean raster, with the ShapeError condition on a boolean raster of
rank other than 2 or 3, and otherwise returns exactly
`voxel_size * onCellCount` (a pure value, no other effect); in particular
it is linear in the voxel size: doubling the voxel size doubles the
volume. -/
theorem volume_mask_spec (arr : NDArray) (v : ℚ) :
    (arr.dtypeBool = false → mask arr v = Except.error VolumeError.typeError) ∧
    (arr.dtypeBool = true → arr.shape.length ≠ 2 → arr.shape.length ≠ 3 →
      mask arr v = Except.error VolumeError.shapeError) ∧
    (arr.dtypeBool = true → (arr.shape.length = 2 ∨ arr.shape.length = 3) →
      mask arr v = Except.ok (v * (countNonzero arr : ℚ))) ∧
    (∀ x, mask arr v = Except.ok x → mask arr (2 * v) = Except.ok (2 * x)) := by
  refine ⟨?_, ?_, ?_, ?_⟩
  · intro h
    unfold mask
    rw [if_pos h]
  · intro h1 h2 h3
    unfold mask
    rw [if_neg (by rw [h1]; simp),
      if_pos (by rintro (h | h); exact h2 h; exact h3 h)]
  · intro h1 h2
    unfold mask
    rw [if_neg (by rw [h1]; simp), if_neg (not_not_intro h2)]
  · intro x hx
    unfold mask at hx ⊢
    by_cases h1 : arr.dtypeBool = false
    · rw [if_pos h1] at hx
      exact Except.noConfusion hx
    · rw [if_neg h1] at hx ⊢
      by_cases h2 : ¬ (arr.shape.length = 2 ∨ arr.shape.length = 3)
      · rw [if_pos h2] at hx
        exact Except.noConfusion hx
      · rw [if_neg h2] at hx ⊢
        cases hx
        exact congrArg _ (mul_assoc 2 v (countNonzero arr : ℚ))

/-- C7 witness: a 3 x 3 all-on boolean raster with voxel size 2 has volume
18, doubling the voxel size doubles it to 36; a rank-1 array gives the
ShapeError condition and non-boolean data the TypeError condition. -/
theorem volume_mask_spec_witness :
    mask ⟨true, [3, 3], List.replicate 9 true⟩ 2 = Except.ok 18 ∧
      mask ⟨true, [3, 3], List.replicate 9 true⟩ 4 = Except.ok 36 ∧
      mask ⟨true, [9], List.replicate 9 true⟩ 2 = Except.error VolumeError.shapeError ∧
      mask ⟨false, [3, 3], List.replicate 9 true⟩ 2 = Except.error VolumeError.typeError := by
  have h := volume_mask_spec ⟨true, [3, 3], List.replicate 9 true⟩ 2
  have harr : countNonzero ⟨true, [3, 3], List.replicate 9 true⟩ = 9 := by decide
  have h2 : mask ⟨true, [3, 3], List.replicate 9 true⟩ 2 = Except.ok 18 := by
    rw [h.2.2.1 rfl (Or.inl rfl), harr]
    norm_num
  refine ⟨h2, ?_, ?_, ?_⟩
  · have h4 := h.2.2.2 18 h2
    norm_num at h4
    exact h4
  · exact (volume_mask_spec ⟨true, [9], List.replicate 9 true⟩ 2).2.1 rfl
      (by decide) (by decide)
  · exact (volume_mask_spec ⟨false, [3, 3], List.replicate 9 true⟩ 2).1 rfl

theorem dget_cons_self [DecidableEq κ] (k : κ) (v : α) (rest : List (κ × α)) :
    dget ((k, v) :: rest) k = some v := by
  simp [dget]

theorem dget_cons_ne [DecidableEq κ] (k p : κ) (v : α) (rest : List (κ × α))
    (h : k ≠ p) : dget ((k, v) :: rest) p = dget rest p := by
  simp [dget, h]

theorem diff_abs_first_none (a b : List (Int × List ℚ)) (p : Int)
    (hb : dget b p = none) : dget (diff_abs_first a b) p = none := by
  induction a with
  | nil => rfl
  | cons q rest ih =>
    obtain ⟨qk, qv⟩ := q
    cases hq : dget b qk with
    | none =>
      simp only [diff_abs_first, hq]
      exact ih
    | some bv =>
      have hne : qk ≠ p := by
        intro he
        rw [he, hb] at hq
        exact Option.noConfusion hq
      simp only [diff_abs_first, hq]
      rw [dget_cons_ne _ _ _ _ hne]
      exact ih

theorem dget_diff_abs_first (a b : List (Int × List ℚ)) (p : Int) (x : ℚ) :
    dget (diff_abs_first a b) p = some x ↔
      ∃ la lb, dget a p = some la ∧ dget b p = some lb ∧
        x = |la.headD 0 - lb.headD 0| := by
  induction a with
  | nil => simp [diff_abs_first, dget]
  | cons q rest ih =>
    obtain ⟨qk, qv⟩ := q
    by_cases hqp : qk = p
    · subst hqp
      cases hq : dget b qk with
      | none =>
        simp only [diff_abs_first, hq]
        rw [diff_abs_first_none rest b qk hq, dget_cons_self]
        constructor
        · intro hc
          exact Option.noConfusion hc
        · rintro ⟨la, lb, _, hlb, _⟩
          exact Option.noConfusion hlb
      | some bv =>
        simp only [diff_abs_first, hq]
        rw [dget_cons_self, dget_cons_self]
        constructor
        · intro hc
          exact ⟨qv, bv, rfl, rfl, (Option.some.inj hc).symm⟩
        · rintro ⟨la, lb, hla, hlb, rfl⟩
          cases Option.some.inj hla
          cases Option.some.inj hlb
          rfl
    · cases hq : dget b qk with
      | none =>
        simp only [diff_abs_first, hq]
        rw [dget_cons_ne _ _ _ _ hqp]
        exact ih
      | some bv =>
        simp only [diff_abs_first, hq]
        rw [dget_cons_ne _ _ _ _ hqp, dget_cons_ne _ _ _ _ hqp]
        exact ih

/-- C9: the set differences (`np.setdiff1d` in the script, and both sides
of dictutils' `find_diff`) report exactly the patients present in the
first collection and absent from the second; the intersect-and-combine
loop with the absolute-difference operator maps exactly the patients
present on both sides to the absolute difference of the first elements of
their volume lists; a patient absent from the second side never appears in
the combined dict. -/
theorem comparator_spec (a b : List (Int × List ℚ)) (l1 l2 : List Int) (p : Int) :
    (p ∈ setdiff1d l1 l2 ↔ p ∈ l1 ∧ p ∉ l2) ∧
    (p ∈ (find_diff l1 l2).2 ↔ p ∈ l1 ∧ p ∉ l2) ∧
    (p ∈ (find_diff l1 l2).1 ↔ p ∈ l2 ∧ p ∉ l1) ∧
    (∀ x : ℚ, dget (diff_abs_first a b) p = some x ↔
      ∃ la lb, dget a p = some la ∧ dget b p = some lb ∧
        x = |la.headD 0 - lb.headD 0|) ∧
    (dget b p = none → dget (diff_abs_first a b) p = none) := by
  refine ⟨?_, ?_, ?_, fun x => dget_diff_abs_first a b p x, diff_abs_first_none a b p⟩
  · unfold setdiff1d
    rw [List.mem_dedup, List.mem_filter]
    simp
  · unfold find_diff
    rw [List.mem_filter]
    simp
  · unfold find_diff
    rw [List.mem_filter]
    simp

/-- C9 witness: patient 7 with first volumes 100 and 60 combines to 40;
patient 3, present only on the first side, is in the set difference and
absent from the combined dict. -/
theorem comparator_spec_witness :
    dget (diff_abs_first [(7, [100]), (3, [5])] [(7, [60])]) 7 = some 40 ∧
      (3 : Int) ∈ setdiff1d [7, 3] [7] ∧
      dget (diff_abs_first [(7, [100]), (3, [5])] [(7, [60])]) 3 = none := by
  refine ⟨?_, ?_, ?_⟩
  · exact ((comparator_spec [(7, [100]), (3, [5])] [(7, [60])] [] [] 7).2.2.2.1 40).mpr
      ⟨[100], [60], rfl, rfl, by norm_num⟩
  · exact (comparator_spec [] [] [7, 3] [7] 3).1.mpr ⟨by decide, by decide⟩
  · exact (comparator_spec [(7, [100]), (3, [5])] [(7, [60])] [] [] 3).2.2.2.2 rfl

/-! ## HierarchicalAggregator theorems -/

theorem dget_dset_self [DecidableEq κ] (d : List (κ × α)) (k : κ) (v : α) :
    dget (dset d k v) k = some v := by
  induction d with
  | nil => simp [dset, dget]
  | cons q rest ih =>
    obtain ⟨qk, qv⟩ := q
    by_cases h : qk = k
    · subst h
      simp [dset, dget]
    · simp only [dset, if_neg h, dget]
      exact ih

theorem dget_dset_ne [DecidableEq κ] (d : List (κ × α)) (k p : κ) (v : α)
    (h : k ≠ p) : dget (dset d k v) p = dget d p := by
  induction d with
  | nil => simp [dset, dget, h]
  | cons q rest ih =>
    obtain ⟨qk, qv⟩ := q
    by_cases hqk : qk = k
    · subst hqk
      have hds : dset ((qk, qv) :: rest) qk v = (qk, v) :: rest := by
        simp [dset]
      rw [hds, dget_cons_ne _ _ _ _ h, dget_cons_ne _ _ _ _ h]
    · simp only [dset, if_neg hqk]
      by_cases hqp : qk = p
      · subst hqp
        rw [dget_cons_self, dget_cons_self]
      · rw [dget_cons_ne _ _ _ _ hqp, dget_cons_ne _ _ _ _ hqp]
        exact ih

theorem dget_eq_none_of_any_false (rest : List (String × NVal)) (k : String)
    (h : rest.any (fun q => q.1 = k) = false) : dget rest k = none := by
  induction rest with
  | nil => rfl
  | cons q rest2 ih =>
    obtain ⟨qk, qv⟩ := q
    simp only [List.any_cons, Bool.or_eq_false_iff] at h
    have hne : qk ≠ k := of_decide_eq_false h.1
    rw [dget_cons_ne _ _ _ _ hne]
    exact ih h.2

theorem compatL_dset_notin (rest : List (String × NVal)) :
    ∀ entries k w, rest.any (fun q => q.1 = k) = false →
      compatL (dset entries k w) rest = compatL entries rest := by
  induction rest with
  | nil =>
    intro entries k w _
    rfl
  | cons q rest2 ih =>
    intro entries k w hany
    obtain ⟨qk, qv⟩ := q
    simp only [List.any_cons, Bool.or_eq_false_iff] at hany
    have hne : k ≠ qk := fun he => (of_decide_eq_false hany.1) he.symm
    simp only [compatL]
    rw [dget_dset_ne _ _ _ _ hne, ih entries k w hany.2]

theorem compatL_dget (m : List (String × NVal)) : ∀ entries k v,
    compatL entries m = true → dget m k = some v →
    compatV ((dget entries k).getD (NVal.node [])) v = true := by
  induction m with
  | nil =>
    intro entries k v _ hv
    exact Option.noConfusion hv
  | cons q rest ih =>
    intro entries k v hc hv
    obtain ⟨qk, qv⟩ := q
    simp only [compatL, Bool.and_eq_true] at hc
    by_cases hqk : qk = k
    · subst hqk
      rw [dget_cons_self] at hv
      cases Option.some.inj hv
      exact hc.1
    · rw [dget_cons_ne _ _ _ _ hqk] at hv
      exact ih entries k v hc.2 hv

theorem nodupL_dget (m : List (String × NVal)) : ∀ k v,
    nodupL m = true → dget m k = some v → nodupV v = true := by
  induction m with
  | nil =>
    intro k v _ hv
    exact Option.noConfusion hv
  | cons q rest ih =>
    intro k v hd hv
    obtain ⟨qk, qv⟩ := q
    simp only [nodupL, Bool.and_eq_true] at hd
    by_cases hqk : qk = k
    · subst hqk
      rw [dget_cons_self] at hv
      cases Option.some.inj hv
      exact hd.1.2
    · rw [dget_cons_ne _ _ _ _ hqk] at hv
      exact ih k v hd.2 hv

/-- The one-level characterization of `update_nested_dict`: merging a
compatible, duplicate-free patch into a base mapping succeeds, and the
result binds every patch key per the contract while leaving the base's
other keys untouched. -/
theorem upd_char (m : List (String × NVal)) : ∀ entries : List (String × NVal),
    compatL entries m = true → nodupL m = true →
    ∃ res, upd (.node entries) m = some (.node res) ∧
      ∀ k, dget res k =
        match dget m k with
        | none => dget entries k
        | some (.leaf x) => some (.leaf x)
        | some (.node sub) => upd ((dget entries k).getD (.node [])) sub := by
  match m with
  | [] =>
    intro entries _ _
    refine ⟨entries, by simp [upd], fun k => ?_⟩
    simp [dget]
  | (k0, NVal.leaf x) :: rest =>
    intro entries hc hd
    simp only [nodupL, Bool.and_eq_true] at hd
    have hany : rest.any (fun q => q.1 = k0) = false := by
      have h2 := hd.1.1
      cases hh : rest.any (fun q => q.1 = k0)
      · rfl
      · rw [hh] at h2
        exact absurd h2 (by simp)
    simp only [compatL, Bool.and_eq_true] at hc
    obtain ⟨res, hres, hchar⟩ := upd_char rest (dset entries k0 (.leaf x))
      (by rw [compatL_dset_notin rest _ _ _ hany]; exact hc.2) hd.2
    refine ⟨res, ?_, fun k => ?_⟩
    · rw [show upd (.node entries) ((k0, NVal.leaf x) :: rest) =
          upd (.node (dset entries k0 (.leaf x))) rest from by simp [upd]]
      exact hres
    · by_cases hk : k0 = k
      · subst hk
        simp only [dget_cons_self]
        have hthis := hchar k0
        simp only [dget_eq_none_of_any_false rest k0 hany] at hthis
        rw [hthis, dget_dset_self]
      · rw [dget_cons_ne _ _ _ _ hk]
        have hthis := hchar k
        cases hrk : dget rest k with
        | none =>
          simp only [hrk] at hthis ⊢
          rw [hthis, dget_dset_ne _ _ _ _ hk]
        | some v0 =>
          cases v0 with
          | leaf y =>
            simp only [hrk] at hthis ⊢
            exact hthis
          | node sub =>
            simp only [hrk] at hthis ⊢
            rw [dget_dset_ne _ _ _ _ hk] at hthis
            exact hthis
  | (k0, NVal.node m0) :: rest =>
    intro entries hc hd
    simp only [nodupL, Bool.and_eq_true] at hd
    have hany : rest.any (fun q => q.1 = k0) = false := by
      have h2 := hd.1.1
      cases hh : rest.any (fun q => q.1 = k0)
      · rfl
      · rw [hh] at h2
        exact absurd h2 (by simp)
    simp only [compatL, Bool.and_eq_true] at hc
    obtain ⟨b, hb, hcb⟩ : ∃ b, (dget entries k0).getD (NVal.node []) = NVal.node b ∧
        compatL b m0 = true := by
      cases hgb : dget entries k0 with
      | none =>
        refine ⟨[], rfl, ?_⟩
        have h2 := hc.1
        rw [hgb] at h2
        simpa [compatV] using h2
      | some v0 =>
        cases v0 with
        | leaf l =>
          have h2 := hc.1
          rw [hgb] at h2
          simp [compatV] at h2
        | node b =>
          refine ⟨b, rfl, ?_⟩
          have h2 := hc.1
          rw [hgb] at h2
          simpa [compatV] using h2
    obtain ⟨mid, hmid, _⟩ := upd_char m0 b hcb (by
      have h2 := hd.1.2
      simpa [nodupV] using h2)
    have hstep : upd (.node entries) ((k0, NVal.node m0) :: rest) =
        upd (.node (dset entries k0 (.node mid))) rest := by
      simp only [upd, hb, hmid]
    obtain ⟨res, hres, hchar⟩ := upd_char rest (dset entries k0 (.node mid))
      (by rw [compatL_dset_notin rest _ _ _ hany]; exact hc.2) hd.2
    refine ⟨res, hstep.trans hres, fun k => ?_⟩
    by_cases hk : k0 = k
    · subst hk
      simp only [dget_cons_self]
      have hthis := hchar k0
      simp only [dget_eq_none_of_any_false rest k0 hany] at hthis
      rw [hthis, dget_dset_self, hb, hmid]
    · rw [dget_cons_ne _ _ _ _ hk]
      have hthis := hchar k
      cases hrk : dget rest k with
      | none =>
        simp only [hrk] at hthis ⊢
        rw [hthis, dget_dset_ne _ _ _ _ hk]
      | some v0 =>
        cases v0 with
        | leaf y =>
          simp only [hrk] at hthis ⊢
          exact hthis
        | node sub =>
          simp only [hrk] at hthis ⊢
          rw [dget_dset_ne _ _ _ _ hk] at hthis
          exact hthis
termination_by sizeOf m
decreasing_by
all_goals simp_wf
all_goals omega

/-- C6: merging a sparse patch into a base hierarchy — for a patch whose
mappings carry Python-dict-unique keys and which is compatible with the
base (it never holds a mapping where the base holds a non-mapping leaf,
the contract's presupposition; dictutils raises otherwise): the merge
returns the updated base, and for every path present in the patch, a leaf
value overwrites whatever the base had at that path, while a mapping value
is recursively merged into the corresponding subtree of the base, an empty
subtree standing in where the base has none. -/
theorem hierarchy_merge_spec (ks : List String) :
    ∀ base patch : List (String × NVal),
    compatL base patch = true → nodupL patch = true →
    ∃ res, upd (.node base) patch = some (.node res) ∧
      (∀ x, lookupPath patch ks = some (.leaf x) →
        lookupPath res ks = some (.leaf x)) ∧
      (∀ sub, lookupPath patch ks = some (.node sub) →
        lookupPath res ks = upd (.node (baseAt base ks)) sub) := by
  match ks with
  | [] =>
    intro base patch hc hd
    obtain ⟨res, hres, _⟩ := upd_char patch base hc hd
    refine ⟨res, hres, fun x hx => ?_, fun sub hsub => ?_⟩
    · simp only [lookupPath] at hx
      exact NVal.noConfusion (Option.some.inj hx)
    · simp only [lookupPath] at hsub ⊢
      cases NVal.node.inj (Option.some.inj hsub)
      exact hres.symm
  | [k] =>
    intro base patch hc hd
    obtain ⟨res, hres, hchar⟩ := upd_char patch base hc hd
    refine ⟨res, hres, fun x hx => ?_, fun sub hsub => ?_⟩
    · simp only [lookupPath] at hx ⊢
      have hthis := hchar k
      simp only [hx] at hthis
      exact hthis
    · simp only [lookupPath] at hsub ⊢
      have hthis := hchar k
      simp only [hsub] at hthis
      rw [hthis]
      have hcv := compatL_dget patch base k _ hc hsub
      cases hgb : dget base k with
      | none =>
        simp only [baseAt, hgb, Option.getD_none]
      | some v0 =>
        cases v0 with
        | leaf l =>
          rw [hgb] at hcv
          simp [compatV] at hcv
        | node b =>
          simp only [baseAt, hgb, Option.getD_some]
  | k :: k2 :: ks2 =>
    intro base patch hc hd
    obtain ⟨res, hres, hchar⟩ := upd_char patch base hc hd
    refine ⟨res, hres, fun x hx => ?_, fun sub hsub => ?_⟩
    · simp only [lookupPath] at hx ⊢
      cases hpk : dget patch k with
      | none =>
        simp only [hpk] at hx
        exact Option.noConfusion hx
      | some v0 =>
        cases v0 with
        | leaf l =>
          simp only [hpk] at hx
          exact Option.noConfusion hx
        | node m1 =>
          simp only [hpk] at hx
          have hcv := compatL_dget patch base k _ hc hpk
          have hnv := nodupL_dget patch k _ hd hpk
          have hnm1 : nodupL m1 = true := by simpa [nodupV] using hnv
          have hthis := hchar k
          simp only [hpk] at hthis
          cases hgb : dget base k with
          | none =>
            rw [hgb] at hthis hcv
            simp only [Option.getD_none] at hthis
            have hcl : compatL [] m1 = true := by simpa [compatV] using hcv
            obtain ⟨res1, hres1, hleaf1, _⟩ :=
              hierarchy_merge_spec (k2 :: ks2) [] m1 hcl hnm1
            rw [hres1] at hthis
            simp only [hthis]
            exact hleaf1 x hx
          | some v1 =>
            cases v1 with
            | leaf l =>
              rw [hgb] at hcv
              simp [compatV] at hcv
            | node b =>
              rw [hgb] at hthis hcv
              simp only [Option.getD_some] at hthis
              have hcl : compatL b m1 = true := by simpa [compatV] using hcv
              obtain ⟨res1, hres1, hleaf1, _⟩ :=
                hierarchy_merge_spec (k2 :: ks2) b m1 hcl hnm1
              rw [hres1] at hthis
              simp only [hthis]
              exact hleaf1 x hx
    · simp only [lookupPath] at hsub ⊢
      cases hpk : dget patch k with
      | none =>
        simp only [hpk] at hsub
        exact Option.noConfusion hsub
      | some v0 =>
        cases v0 with
        | leaf l =>
          simp only [hpk] at hsub
          exact Option.noConfusion hsub
        | node m1 =>
          simp only [hpk] at hsub
          have hcv := compatL_dget patch base k _ hc hpk
          have hnv := nodupL_dget patch k _ hd hpk
          have hnm1 : nodupL m1 = true := by simpa [nodupV] using hnv
          have hthis := hchar k
          simp only [hpk] at hthis
          cases hgb : dget base k with
          | none =>
            rw [hgb] at hthis hcv
            simp only [Option.getD_none] at hthis
            have hcl : compatL [] m1 = true := by simpa [compatV] using hcv
            obtain ⟨res1, hres1, _, hnode1⟩ :=
              hierarchy_merge_spec (k2 :: ks2) [] m1 hcl hnm1
            rw [hres1] at hthis
            simp only [hthis, baseAt, hgb]
            exact hnode1 sub hsub
          | some v1 =>
            cases v1 with
            | leaf l =>
              rw [hgb] at hcv
              simp [compatV] at hcv
            | node b =>
              rw [hgb] at hthis hcv
              simp only [Option.getD_some] at hthis
              have hcl : compatL b m1 = true := by simpa [compatV] using hcv
              obtain ⟨res1, hres1, _, hnode1⟩ :=
                hierarchy_merge_spec (k2 :: ks2) b m1 hcl hnm1
              rw [hres1] at hthis
              simp only [hthis, baseAt, hgb]
              exact hnode1 sub hsub
termination_by ks.length
decreasing_by
all_goals simp_wf

/-- C6 witness: merging the patch over base writes the leaf 7 over the
existing leaf at path b, creates and fills the subtree entry at path a.y,
and keeps the untouched path a.x. -/
theorem hierarchy_merge_spec_witness :
    ∃ res, upd (.node [("a", .node [("x", .leaf 1)]), ("b", .leaf 2)])
        [("a", .node [("y", .leaf 9)]), ("b", .leaf 7)] = some (.node res) ∧
      lookupPath res ["b"] = some (.leaf 7) ∧
      lookupPath res ["a", "y"] = some (.leaf 9) := by
  obtain ⟨res, hres, hleaf, _⟩ := hierarchy_merge_spec ["b"]
    [("a", .node [("x", .leaf 1)]), ("b", .leaf 2)]
    [("a", .node [("y", .leaf 9)]), ("b", .leaf 7)]
    (by decide) (by decide)
  obtain ⟨res2, hres2, hleaf2, _⟩ := hierarchy_merge_spec ["a", "y"]
    [("a", .node [("x", .leaf 1)]), ("b", .leaf 2)]
    [("a", .node [("y", .leaf 9)]), ("b", .leaf 7)]
    (by decide) (by decide)
  rw [hres] at hres2
  cases NVal.node.inj (Option.some.inj hres2)
  exact ⟨res, hres, hleaf 7 (by simp [lookupPath, dget]),
    hleaf2 9 (by simp [lookupPath, dget])⟩

/-! ## MaskPostProcessor theorems -/

theorem contains_iff_mem [BEq α] [LawfulBEq α] (l : List α) (a : α) :
    l.contains a = true ↔ a ∈ l := by
  induction l with
  | nil => simp
  | cons b rest ih => simp

theorem mem_allPositions (g : List (List Nat)) (p : Nat × Nat) :
    p ∈ allPositions g ↔ validPos g p = true := by
  obtain ⟨i, j⟩ := p
  unfold allPositions validPos
  rw [List.mem_flatMap]
  constructor
  · rintro ⟨a, ha, hm⟩
    rw [List.mem_range] at ha
    rw [List.mem_map] at hm
    obtain ⟨b, hb, heq⟩ := hm
    rw [List.mem_range] at hb
    cases heq
    simp only [Bool.and_eq_true, decide_eq_true_eq]
    exact ⟨ha, hb⟩
  · intro hv
    simp only [Bool.and_eq_true, decide_eq_true_eq] at hv
    exact ⟨i, List.mem_range.mpr hv.1,
      List.mem_map.mpr ⟨j, List.mem_range.mpr hv.2, rfl⟩⟩

theorem mem_stepReach_of_mem (g : List (List Nat)) (v : List (Nat × Nat))
    (p : Nat × Nat) (hp : p ∈ v) : p ∈ stepReach g v :=
  List.mem_append_left _ hp

theorem mem_iterReach_of_mem (g : List (List Nat)) :
    ∀ n v (p : Nat × Nat), p ∈ v → p ∈ iterReach g n v := by
  intro n
  induction n with
  | zero => intro v p hp; exact hp
  | succ n ih =>
    intro v p hp
    exact ih (stepReach g v) p (mem_stepReach_of_mem g v p hp)

theorem reach_of_mem_stepReach (g : List (List Nat)) (v : List (Nat × Nat))
    (p : Nat × Nat) (hall : ∀ q ∈ v, Reach g q) (hp : p ∈ stepReach g v) :
    Reach g p := by
  rcases List.mem_append.mp hp with h | h
  · exact hall p h
  · rw [List.mem_filter] at h
    obtain ⟨hpos, hcond⟩ := h
    simp only [Bool.and_eq_true] at hcond
    obtain ⟨⟨hoff, _⟩, hadj⟩ := hcond
    rw [List.any_eq_true] at hadj
    obtain ⟨q, hq, hqadj⟩ := hadj
    exact Reach.step p q (hall q hq) hqadj ((mem_allPositions g p).mp hpos) hoff

theorem reach_of_mem_iterReach (g : List (List Nat)) :
    ∀ n v, (∀ q ∈ v, Reach g q) → ∀ p ∈ iterReach g n v, Reach g p := by
  intro n
  induction n with
  | zero => intro v hall p hp; exact hall p hp
  | succ n ih =>
    intro v hall p hp
    exact ih (stepReach g v) (fun q hq => reach_of_mem_stepReach g v q hall hq) p hp

theorem borderOffCells_reach (g : List (List Nat)) (q : Nat × Nat)
    (hq : q ∈ borderOffCells g) : Reach g q := by
  rw [borderOffCells, List.mem_filter] at hq
  obtain ⟨_, hcond⟩ := hq
  simp only [Bool.and_eq_true] at hcond
  exact Reach.border q hcond.1 hcond.2

theorem reach_of_mem_reachSet (g : List (List Nat)) (p : Nat × Nat)
    (hp : p ∈ reachSet g) : Reach g p :=
  reach_of_mem_iterReach g _ _ (fun q hq => borderOffCells_reach g q hq) p hp

theorem iterReach_fix (g : List (List Nat)) :
    ∀ n v, stepReach g v = v → iterReach g n v = v := by
  intro n
  induction n with
  | zero => intro v _; rfl
  | succ n ih =>
    intro v h
    rw [iterReach, h]
    exact ih v h

theorem countP_le_of_imp (q1 q2 : α → Bool) :
    ∀ l : List α, (∀ a ∈ l, q1 a = true → q2 a = true) →
      l.countP q1 ≤ l.countP q2 := by
  intro l
  induction l with
  | nil => intro _; simp
  | cons a rest ih =>
    intro himp
    rw [List.countP_cons, List.countP_cons]
    have hrest := ih (fun x hx => himp x (List.mem_cons_of_mem a hx))
    by_cases h : q1 a = true
    · rw [h, himp a (List.mem_cons_self a rest) h]
      omega
    · rw [Bool.not_eq_true] at h
      rw [h]
      simp only [Bool.false_eq_true, if_false]
      omega

theorem countP_lt_of_strict (q1 q2 : α → Bool) :
    ∀ l : List α, (∀ a ∈ l, q1 a = true → q2 a = true) →
      (∃ a ∈ l, q2 a = true ∧ q1 a = false) →
      l.countP q1 < l.countP q2 := by
  intro l
  induction l with
  | nil =>
    rintro _ ⟨a, ha, _⟩
    exact absurd ha (List.not_mem_nil a)
  | cons a rest ih =>
    rintro himp ⟨b, hb, hq2, hq1⟩
    rw [List.countP_cons, List.countP_cons]
    rcases List.mem_cons.mp hb with rfl | hbr
    · have hrest := countP_le_of_imp q1 q2 rest
        (fun x hx => himp x (List.mem_cons_of_mem b hx))
      rw [hq1, hq2]
      simp only [Bool.false_eq_true, if_false, if_true]
      omega
    · have hrec := ih (fun x hx => himp x (List.mem_cons_of_mem a hx)) ⟨b, hbr, hq2, hq1⟩
      by_cases h : q1 a = true
      · rw [h, himp a (List.mem_cons_self a rest) h]
        omega
      · rw [Bool.not_eq_true] at h
        rw [h]
        simp only [Bool.false_eq_true, if_false]
        omega

theorem stepReach_missing_lt (g : List (List Nat)) (v : List (Nat × Nat))
    (hne : stepReach g v ≠ v) :
    missingCount g (stepReach g v) < missingCount g v := by
  cases hnew : (allPositions g).filter
      (fun p => isOffCell g p && !(v.contains p) && v.any (fun q => adjacentPos p q)) with
  | nil =>
    exact absurd (by unfold stepReach; rw [hnew]; simp) hne
  | cons p0 rest2 =>
    have hp0 : p0 ∈ (allPositions g).filter
        (fun p => isOffCell g p && !(v.contains p) && v.any (fun q => adjacentPos p q)) := by
      rw [hnew]
      exact List.mem_cons_self p0 rest2
    rw [List.mem_filter] at hp0
    obtain ⟨hp0mem, hp0f⟩ := hp0
    simp only [Bool.and_eq_true] at hp0f
    unfold missingCount
    apply countP_lt_of_strict
    · intro a _ h1
      cases hva : v.contains a with
      | false => rfl
      | true =>
        have hmem : a ∈ v := (contains_iff_mem v a).mp hva
        have hsc : (stepReach g v).contains a = true :=
          (contains_iff_mem _ a).mpr (mem_stepReach_of_mem g v a hmem)
        rw [hsc] at h1
        exact absurd h1 (by simp)
    · refine ⟨p0, hp0mem, hp0f.1.2, ?_⟩
      have hmem : p0 ∈ stepReach g v := by
        apply List.mem_append_right
        rw [hnew]
        exact List.mem_cons_self p0 rest2
      have hsc : (stepReach g v).contains p0 = true := (contains_iff_mem _ _).mpr hmem
      rw [hsc]
      rfl

theorem stepReach_eq_of_missing_zero (g : List (List Nat)) (v : List (Nat × Nat))
    (hm : missingCount g v = 0) : stepReach g v = v := by
  unfold stepReach
  have hall := List.countP_eq_zero.mp hm
  have hfil : (allPositions g).filter
      (fun p => isOffCell g p && !(v.contains p) && v.any (fun q => adjacentPos p q)) = [] := by
    rw [List.filter_eq_nil_iff]
    intro a ha hcond
    simp only [Bool.and_eq_true] at hcond
    exact hall a ha (by rw [hcond.1.2])
  rw [hfil]
  simp

theorem iterReach_saturates (g : List (List Nat)) :
    ∀ n v, missingCount g v ≤ n →
      stepReach g (iterReach g n v) = iterReach g n v := by
  intro n
  induction n with
  | zero =>
    intro v hm
    exact stepReach_eq_of_missing_zero g v (Nat.le_zero.mp hm)
  | succ n ih =>
    intro v hm
    by_cases hfix : stepReach g v = v
    · have hiter : iterReach g (n + 1) v = v := by
        rw [iterReach, hfix]
        exact iterReach_fix g n v hfix
      rw [hiter]
      exact hfix
    · have hlt := stepReach_missing_lt g v hfix
      have hle : missingCount g (stepReach g v) ≤ n := by omega
      rw [iterReach]
      exact ih (stepReach g v) hle

theorem stepReach_reachSet_fix (g : List (List Nat)) :
    stepReach g (reachSet g) = reachSet g := by
  unfold reachSet
  exact iterReach_saturates g _ _ (List.countP_le_length _)

theorem mem_reachSet_of_reach (g : List (List Nat)) (p : Nat × Nat)
    (hr : Reach g p) : p ∈ reachSet g := by
  induction hr with
  | border q hb ho =>
    apply mem_iterReach_of_mem
    rw [borderOffCells, List.mem_filter]
    have hv : validPos g q = true := by
      simp only [isBorderPos, Bool.and_eq_true] at hb
      exact hb.1
    refine ⟨(mem_allPositions g q).mpr hv, ?_⟩
    rw [hb, ho]
    rfl
  | step p q hq ha hv ho ihq =>
    by_contra hp
    have hsat := stepReach_reachSet_fix g
    have hpin : p ∈ stepReach g (reachSet g) := by
      apply List.mem_append_right
      rw [List.mem_filter]
      refine ⟨(mem_allPositions g p).mpr hv, ?_⟩
      simp only [Bool.and_eq_true]
      refine ⟨⟨ho, ?_⟩, ?_⟩
      · cases hc : (reachSet g).contains p with
        | false => rfl
        | true => exact absurd ((contains_iff_mem _ _).mp hc) hp
      · rw [List.any_eq_true]
        exact ⟨q, ihq, ha⟩
    rw [hsat] at hpin
    exact hp hpin

theorem fillRow_length (g : List (List Nat)) (i : Nat) :
    ∀ row j0, (fillRow g i row j0).length = row.length := by
  intro row
  induction row with
  | nil => intro _; rfl
  | cons v rest ih =>
    intro j0
    simp only [fillRow, List.length_cons]
    rw [ih (j0 + 1)]

theorem fillRow_getD (g : List (List Nat)) (i : Nat) :
    ∀ row j0 j, j < row.length →
      (fillRow g i row j0).getD j 0 =
        if row.getD j 0 ≠ 0 then 255
        else if (i, j0 + j) ∈ reachSet g then 0 else 255 := by
  intro row
  induction row with
  | nil =>
    intro j0 j hj
    simp at hj
  | cons v rest ih =>
    intro j0 j hj
    cases j with
    | zero =>
      simp only [fillRow, List.getD_cons_zero, Nat.add_zero]
    | succ jj =>
      simp only [fillRow, List.getD_cons_succ]
      rw [ih (j0 + 1) jj (by simpa using hj)]
      have hsum : j0 + 1 + jj = j0 + (jj + 1) := by omega
      rw [hsum]

theorem fillRows_length (g : List (List Nat)) :
    ∀ rows i0, (fillRows g rows i0).length = rows.length := by
  intro rows
  induction rows with
  | nil => intro _; rfl
  | cons row rest ih =>
    intro i0
    simp only [fillRows, List.length_cons]
    rw [ih (i0 + 1)]

theorem fillRows_getD (g : List (List Nat)) :
    ∀ rows i0 i, i < rows.length →
      (fillRows g rows i0).getD i [] = fillRow g (i0 + i) (rows.getD i []) 0 := by
  intro rows
  induction rows with
  | nil =>
    intro i0 i hi
    simp at hi
  | cons row rest ih =>
    intro i0 i hi
    cases i with
    | zero => simp only [fillRows, List.getD_cons_zero, Nat.add_zero]
    | succ ii =>
      simp only [fillRows, List.getD_cons_succ]
      rw [ih (i0 + 1) ii (by simpa using hi)]
      have hsum : i0 + 1 + ii = i0 + (ii + 1) := by omega
      rw [hsum]

theorem getD_of_length_le (l : List α) (d : α) (i : Nat) (h : l.length ≤ i) :
    l.getD i d = d := by
  induction l generalizing i with
  | nil => rfl
  | cons x xs ih =>
    cases i with
    | zero => simp at h
    | succ k => exact ih k (by simpa using h)

theorem fill_mask_length (g : List (List Nat)) : (fill_mask g).length = g.length :=
  fillRows_length g g 0

theorem fill_mask_row_length (g : List (List Nat)) (i : Nat) :
    ((fill_mask g).getD i []).length = (g.getD i []).length := by
  by_cases hi : i < g.length
  · unfold fill_mask
    rw [fillRows_getD g g 0 i hi, fillRow_length]
  · rw [getD_of_length_le _ _ i (by rw [fill_mask_length]; omega),
      getD_of_length_le _ _ i (by omega)]

theorem cell_fill_mask (g : List (List Nat)) (i j : Nat)
    (hi : i < g.length) (hj : j < (g.getD i []).length) :
    cell (fill_mask g) i j =
      if cell g i j ≠ 0 then 255 else if (i, j) ∈ reachSet g then 0 else 255 := by
  unfold cell fill_mask
  rw [fillRows_getD g g 0 i hi]
  rw [fillRow_getD g (0 + i) (g.getD i []) 0 j hj]
  simp only [Nat.zero_add]

theorem validPos_fill (g : List (List Nat)) (p : Nat × Nat) :
    validPos (fill_mask g) p = validPos g p := by
  unfold validPos
  rw [fill_mask_length, fill_mask_row_length]

theorem isBorderPos_fill (g : List (List Nat)) (p : Nat × Nat) :
    isBorderPos (fill_mask g) p = isBorderPos g p := by
  unfold isBorderPos
  rw [validPos_fill, fill_mask_length, fill_mask_row_length]

theorem isOffCell_fill_of (g : List (List Nat)) (p : Nat × Nat)
    (hv : validPos g p = true) (ho : isOffCell g p = true)
    (hr : p ∈ reachSet g) : isOffCell (fill_mask g) p = true := by
  simp only [validPos, Bool.and_eq_true, decide_eq_true_eq] at hv
  simp only [isOffCell, decide_eq_true_eq] at ho ⊢
  have hc := cell_fill_mask g p.1 p.2 hv.1 hv.2
  unfold cell at hc
  rw [hc, if_neg (not_not_intro ho), if_pos (by rw [Prod.mk.eta]; exact hr)]

theorem reach_fill (g : List (List Nat)) (p : Nat × Nat) (hr : Reach g p) :
    Reach (fill_mask g) p := by
  induction hr with
  | border q hb ho =>
    have hv : validPos g q = true := by
      simp only [isBorderPos, Bool.and_eq_true] at hb
      exact hb.1
    have hm : q ∈ reachSet g := mem_reachSet_of_reach g q (Reach.border q hb ho)
    exact Reach.border q (by rw [isBorderPos_fill]; exact hb)
      (isOffCell_fill_of g q hv ho hm)
  | step p q hq ha hv ho ihq =>
    have hm : p ∈ reachSet g := mem_reachSet_of_reach g p (Reach.step p q hq ha hv ho)
    exact Reach.step p q ihq ha (by rw [validPos_fill]; exact hv)
      (isOffCell_fill_of g p hv ho hm)

theorem getD_eq_getElem' (l : List α) (d : α) (i : Nat) (h : i < l.length) :
    l.getD i d = l[i] := by
  induction l generalizing i with
  | nil => simp at h
  | cons x xs ih =>
    cases i with
    | zero => rfl
    | succ k => exact ih k (by simpa using h)

theorem list2_ext (g1 g2 : List (List Nat))
    (hlen : g1.length = g2.length)
    (hrow : ∀ i, i < g2.length → (g1.getD i []).length = (g2.getD i []).length)
    (hcell : ∀ i j, i < g2.length → j < (g2.getD i []).length →
      (g1.getD i []).getD j 0 = (g2.getD i []).getD j 0) : g1 = g2 := by
  apply List.ext_getElem hlen
  intro i h1 h2
  have hrl : g1[i].length = g2[i].length := by
    have hr := hrow i h2
    rw [getD_eq_getElem' _ _ _ h1, getD_eq_getElem' _ _ _ h2] at hr
    exact hr
  apply List.ext_getElem hrl
  intro j hj1 hj2
  have hc := hcell i j h2 (by rw [← getD_eq_getElem' g2 [] i h2] at hj2; exact hj2)
  rw [getD_eq_getElem' _ _ _ h1, getD_eq_getElem' _ _ _ h2] at hc
  rw [getD_eq_getElem' _ _ _ hj1, getD_eq_getElem' _ _ _ hj2] at hc
  exact hc

theorem cell_pos_valid (g : List (List Nat)) (i j : Nat) (h : cell g i j ≠ 0) :
    i < g.length ∧ j < (g.getD i []).length := by
  constructor
  · by_contra hi
    apply h
    unfold cell
    rw [getD_of_length_le _ _ i (by omega)]
    rfl
  · by_contra hj
    apply h
    unfold cell
    rw [getD_of_length_le _ _ j (by omega)]

/-- C8: hole-filling (modelled from the spec; the scipy routine masks.py
delegates to is not code of this repository) is idempotent — filling a
filled mask changes nothing — and monotone on set cells: every cell that
was on before filling is still on after. -/
theorem fill_mask_spec (m : List (List Nat)) :
    fill_mask (fill_mask m) = fill_mask m ∧
      ∀ i j, onCell m i j ≤ onCell (fill_mask m) i j := by
  constructor
  · apply list2_ext
    · rw [fill_mask_length]
    · intro i _
      rw [fill_mask_row_length]
    · intro i j hi hj
      have him : i < m.length := by
        rw [fill_mask_length] at hi
        exact hi
      have hjm : j < (m.getD i []).length := by
        rw [fill_mask_row_length] at hj
        exact hj
      have h1 := cell_fill_mask m i j him hjm
      have h2 := cell_fill_mask (fill_mask m) i j
        (by rw [fill_mask_length]; exact him)
        (by rw [fill_mask_row_length]; exact hjm)
      unfold cell at h1 h2
      rw [h2, h1]
      by_cases h0 : (m.getD i []).getD j 0 = 0
      · rw [if_neg (not_not_intro h0)]
        by_cases hrm : (i, j) ∈ reachSet m
        · rw [if_pos hrm, if_neg (by norm_num)]
          have hR : Reach m (i, j) := reach_of_mem_reachSet m (i, j) hrm
          have hmem : (i, j) ∈ reachSet (fill_mask m) :=
            mem_reachSet_of_reach _ _ (reach_fill m (i, j) hR)
          rw [if_pos hmem]
        · rw [if_neg hrm, if_pos (by norm_num)]
      · rw [if_pos h0, if_pos (by norm_num)]
  · intro i j
    cases hon : onCell m i j with
    | false => exact Bool.false_le _
    | true =>
      have hx : cell m i j ≠ 0 := by simpa [onCell] using hon
      have hv := cell_pos_valid m i j hx
      have h1 := cell_fill_mask m i j hv.1 hv.2
      have h255 : cell (fill_mask m) i j = 255 := by rw [h1, if_pos hx]
      simp [onCell, h255]
